import Mathlib

/-!
Verification development for the DLMO (Deep Learning Memory Optimizer)
repository.  The definitions below are shallow embeddings of the current
iteration of `schedule.hpp` (the chunk containing `Common`, `Occupy` with
`re_gen`, and the `Comparator` with `MEMORY_FACTOR = 0.6`) and of the
corresponding `optimize` loop of `optimizer.hpp`.

Machine integers (`size_t`, `uint64_t`) are modelled as `Nat` with explicit
reduction modulo `2 ^ 64` at the operations where the C++ code can wrap
(rolling hashes, the running `total_time` accumulator, the unsigned
subtraction `total_time - origin_time`).  IEEE `double` arithmetic in the
score computations is modelled exactly over `ℚ`.  C++ raw-pointer identity
of list nodes is modelled by a `ptr : Nat` field.
-/

/-- Embeds `2 ^ 64`, the modulus of `size_t` / `uint64_t` arithmetic. -/
def U64 : Nat := 2 ^ 64

/-- The value of the C++ expression `a - b` at `uint64_t` type, for
`a b < 2 ^ 64` (wraps around on underflow). -/
def u64sub (a b : Nat) : Nat := (a + U64 - b) % U64

/-- The memoized result of `Schedule::analyze()`: the pair
`(peak_memory, total_time)` that the comparator reads. -/
structure Stats where
  peak_memory : Nat
  total_time : Nat

/-- The search comparator `Comparator` of `schedule.hpp` (fields
`origin_time`, `limit`). -/
structure Cmp where
  origin_time : Nat
  limit : Nat

namespace Cmp

/-- Embeds `Comparator::MEMORY_FACTOR = 0.6`. -/
def MEMORY_FACTOR : ℚ := 6 / 10

/-- Embeds `Comparator::TIME_FACTOR = 1.0 - MEMORY_FACTOR`. -/
def TIME_FACTOR : ℚ := 1 - MEMORY_FACTOR

/-- Embeds `Comparator::RECONSIDER_RATIO = 1.2`. -/
def RECONSIDER_RATIO : ℚ := 12 / 10

/-- Embeds `Comparator::TIME_REQUIREMENT_RATIO = 1.01`. -/
def TIME_REQUIREMENT_RATIO : ℚ := 101 / 100

/-- Embeds `Comparator::score`.  `total_time - origin_time` is computed at
`uint64_t` (wrapping) before the conversion to `double`; the `double`
arithmetic itself is modelled exactly over `ℚ`. -/
def score (c : Cmp) (s : Stats) : ℚ :=
  let exceeded_memory_ratio : ℚ :=
    if c.limit < s.peak_memory
    then ((s.peak_memory - c.limit : Nat) : ℚ) / (c.limit : ℚ)
    else 0
  let exceeded_time_ratio : ℚ :=
    ((u64sub s.total_time c.origin_time : Nat) : ℚ) / (c.origin_time : ℚ)
  MEMORY_FACTOR * exceeded_memory_ratio + TIME_FACTOR * exceeded_time_ratio

/-- Embeds `Comparator::operator()(s1, s2)`: `true` means `s1` ranks strictly
below `s2` in the priority queue. -/
def lt (c : Cmp) (s1 s2 : Stats) : Bool :=
  if (decide (s1.peak_memory ≤ c.limit)) ≠ (decide (s2.peak_memory ≤ c.limit)) then
    decide (s2.peak_memory ≤ c.limit)
  else if s1.peak_memory ≤ c.limit then
    decide (s2.total_time < s1.total_time)
  else
    decide (c.score s2 < c.score s1)

/-- Embeds `Comparator::satisfy`. -/
def satisfy (c : Cmp) (s : Stats) : Bool :=
  decide (s.peak_memory ≤ c.limit) &&
    decide ((s.total_time : ℚ) ≤ TIME_REQUIREMENT_RATIO * (c.origin_time : ℚ))

/-- Embeds `Comparator::considerable(s1, s2)`. -/
def considerable (c : Cmp) (s1 s2 : Stats) : Bool :=
  decide (c.score s2 < c.score s1 * RECONSIDER_RATIO)

end Cmp

/-- The score formula in the words of the spec:
`0.6 * max(0, (peak - limit)/limit) + 0.4 * (time - origin_time)/origin_time`,
with exact (signed) arithmetic. -/
def specScore (c : Cmp) (s : Stats) : ℚ :=
  6 / 10 * max 0 (((s.peak_memory : ℚ) - (c.limit : ℚ)) / (c.limit : ℚ)) +
    4 / 10 * (((s.total_time : ℚ) - (c.origin_time : ℚ)) / (c.origin_time : ℚ))

/-- The comparator in the words of the spec: if exactly one of the two is
within the limit, that one is better; if both are within, lower total time
is better; otherwise lower `specScore` is better.  `true` means `s1` is the
worse of the two. -/
def specLt (c : Cmp) (s1 s2 : Stats) : Bool :=
  if (decide (s1.peak_memory ≤ c.limit)) ≠ (decide (s2.peak_memory ≤ c.limit)) then
    decide (s2.peak_memory ≤ c.limit)
  else if s1.peak_memory ≤ c.limit ∧ s2.peak_memory ≤ c.limit then
    decide (s2.total_time < s1.total_time)
  else
    decide (specScore c s2 < specScore c s1)

/-- Unit helpers from `utils.hpp`: `Unit::GiB` and `Unit::ms` (in ns). -/
def Unit.GiB (n : Nat) : Nat := n * 1024 * 1024 * 1024

/-- Embeds `Unit::ms` in nanoseconds. -/
def Unit.ms (n : Nat) : Nat := n * 1000000

section C1lemmas

lemma u64sub_eq_sub {a b : Nat} (hba : b ≤ a) (ha : a < U64) :
    u64sub a b = a - b := by
  unfold u64sub
  have h1 : a + U64 - b = (a - b) + U64 := by omega
  rw [h1, Nat.add_mod_right, Nat.mod_eq_of_lt (by omega)]

lemma score_eq_specScore (c : Cmp) (s : Stats)
    (h1 : c.origin_time ≤ s.total_time) (h2 : s.total_time < U64) :
    c.score s = specScore c s := by
  unfold Cmp.score specScore Cmp.TIME_FACTOR Cmp.MEMORY_FACTOR
  simp only []
  rw [u64sub_eq_sub h1 h2]
  have htime : ((s.total_time - c.origin_time : Nat) : ℚ) =
      (s.total_time : ℚ) - (c.origin_time : ℚ) := by
    push_cast [h1]; ring
  rw [htime]
  by_cases h : c.limit < s.peak_memory
  · have hmem : ((s.peak_memory - c.limit : Nat) : ℚ) =
        (s.peak_memory : ℚ) - (c.limit : ℚ) := by
      push_cast [le_of_lt h]; ring
    have hnn : (0 : ℚ) ≤ ((s.peak_memory : ℚ) - (c.limit : ℚ)) / (c.limit : ℚ) := by
      apply div_nonneg
      · simp only [sub_nonneg]
        exact_mod_cast le_of_lt h
      · exact_mod_cast Nat.zero_le c.limit
    rw [if_pos h, hmem, max_eq_right hnn]
    ring
  · have hnp : ((s.peak_memory : ℚ) - (c.limit : ℚ)) / (c.limit : ℚ) ≤ 0 := by
      apply div_nonpos_of_nonpos_of_nonneg
      · simp only [sub_nonpos]
        exact_mod_cast Nat.le_of_not_lt h
      · exact_mod_cast Nat.zero_le c.limit
    rw [if_neg h, max_eq_left hnp]
    ring

end C1lemmas

/-- C1: `Comparator::operator()` implements the lexicographic rule of the
spec (given that total times are at least `origin_time` and representable,
so that the unsigned subtraction inside `score` is exact), and on the
spec's concrete example schedules `S_A` (peak 1 GiB, time 100 ms) and `S_B`
(peak 2 GiB, time 90 ms) with `origin_time` 80 ms: with limit 1.5 GiB the
comparator prefers `S_A`, and with limit 3 GiB it prefers `S_B`. -/
theorem comparator_lexicographic_rule :
    (∀ (c : Cmp) (s1 s2 : Stats),
      c.origin_time ≤ s1.total_time → c.origin_time ≤ s2.total_time →
      s1.total_time < U64 → s2.total_time < U64 →
      c.lt s1 s2 = specLt c s1 s2) ∧
    (Cmp.lt ⟨Unit.ms 80, 3 * Unit.GiB 1 / 2⟩
        ⟨Unit.GiB 1, Unit.ms 100⟩ ⟨Unit.GiB 2, Unit.ms 90⟩ = false ∧
     Cmp.lt ⟨Unit.ms 80, 3 * Unit.GiB 1 / 2⟩
        ⟨Unit.GiB 2, Unit.ms 90⟩ ⟨Unit.GiB 1, Unit.ms 100⟩ = true) ∧
    (Cmp.lt ⟨Unit.ms 80, Unit.GiB 3⟩
        ⟨Unit.GiB 1, Unit.ms 100⟩ ⟨Unit.GiB 2, Unit.ms 90⟩ = true ∧
     Cmp.lt ⟨Unit.ms 80, Unit.GiB 3⟩
        ⟨Unit.GiB 2, Unit.ms 90⟩ ⟨Unit.GiB 1, Unit.ms 100⟩ = false) := by
  refine ⟨?_, ⟨?_, ?_⟩, ⟨?_, ?_⟩⟩
  · intro c s1 s2 h1 h2 hb1 hb2
    unfold Cmp.lt specLt
    rw [score_eq_specScore c s1 h1 hb1, score_eq_specScore c s2 h2 hb2]
    by_cases ha : s1.peak_memory ≤ c.limit <;> by_cases hc : s2.peak_memory ≤ c.limit <;>
      simp [ha, hc]
  · decide
  · decide
  · decide
  · decide

/-- Witness for `comparator_lexicographic_rule`: the universally
quantified part applied at the spec's second concrete example (both
schedules within the 3 GiB limit). -/
theorem comparator_lexicographic_rule_witness :
    Cmp.lt ⟨Unit.ms 80, Unit.GiB 3⟩
        ⟨Unit.GiB 1, Unit.ms 100⟩ ⟨Unit.GiB 2, Unit.ms 90⟩ =
      specLt ⟨Unit.ms 80, Unit.GiB 3⟩
        ⟨Unit.GiB 1, Unit.ms 100⟩ ⟨Unit.GiB 2, Unit.ms 90⟩ :=
  comparator_lexicographic_rule.1 ⟨Unit.ms 80, Unit.GiB 3⟩
    ⟨Unit.GiB 1, Unit.ms 100⟩ ⟨Unit.GiB 2, Unit.ms 90⟩
    (by decide) (by decide) (by decide) (by decide)

/-- A task node of the current schedule module, restricted to the fields
that `Schedule::hash`, `Common::analyzeTime` and `Schedule::apply` read:
the integer `id` (assigned 1.. at load and preserved by `Task::copy`), the
`duration`, and the raw shared-pointer identity `ptr` of the node (tasks
are linked intrusively through `prev`/`next`, so one node occurs at most
once in a list; `apply` compares `task == occupy.use` by this identity). -/
structure ApplyTask where
  ptr : Nat
  id : Nat
  duration : Nat
  deriving DecidableEq

/-- Embeds `Task::copy()` as observed through the fields above: `name`,
`workspace`, `ins`, `outs`, `id`, `duration` and `inplace` are copied
verbatim (the fresh C++ allocation only matters for `ptr`-identity, which
no theorem below reads on the output list). -/
def ApplyTask.copy (t : ApplyTask) : ApplyTask := t

/-- Embeds `Schedule::hash`: `hash_value = hash_value * 131 + task->id` along the
task list, at `size_t` (64-bit). -/
def Schedule.hash (tasks : List ApplyTask) : Nat :=
  tasks.foldl (fun h t => (h * 131 + t.id) % U64) 0

/-- The rolling hash over a plain id sequence, in the words of the spec:
"a rolling hash of task ids along the list". -/
def rollIds (ids : List Nat) : Nat :=
  ids.foldl (fun h i => (h * 131 + i) % U64) 0

/-- Embeds `Common::analyzeTime`: `total_time += task->duration` over the list at
`uint64_t`. -/
def analyzeTime (tasks : List ApplyTask) : Nat :=
  tasks.foldl (fun t task => (t + task.duration) % U64) 0

/-- An `Occupy` candidate as consumed by `Schedule::apply`: the `gen` and
`use` task handles, the `re_gen` chain (deepest first, inserted in
reverse), and the `move` flag. -/
structure ApplyOccupy where
  gen : ApplyTask
  use : ApplyTask
  re_gen : List ApplyTask
  move : Bool

/-- Embeds `Schedule::apply`: walk the parent list; before the `use` node insert
copies of `re_gen` in reverse order followed by a copy of `gen`; skip the
original `gen` node exactly when `move` holds; copy every node otherwise.
(`insert_back` appends to the new list, so the walk is a left-to-right
concatenation.) -/
def Schedule.apply (o : ApplyOccupy) : List ApplyTask → List ApplyTask
  | [] => []
  | task :: rest =>
      (if task.ptr = o.use.ptr then
        (o.re_gen.reverse.map ApplyTask.copy) ++ [o.gen.copy]
      else []) ++
      (if ¬(task.ptr = o.gen.ptr ∧ o.move) then [task.copy] else []) ++
      Schedule.apply o rest

section HashLemmas

lemma Schedule.hash_eq_rollIds (tasks : List ApplyTask) :
    Schedule.hash tasks = rollIds (tasks.map (·.id)) := by
  unfold Schedule.hash rollIds
  rw [List.foldl_map]

end HashLemmas

/-- C8: `Schedule::hash` is the rolling hash `h ↦ h * 131 + task->id`
(64-bit) over the task ids along the list, and consequently any two
schedules with identical task-id sequences have equal hashes. -/
theorem schedule_hash_rolling_and_id_determined :
    (∀ tasks : List ApplyTask, Schedule.hash tasks = rollIds (tasks.map (·.id))) ∧
    (∀ s1 s2 : List ApplyTask,
      s1.map (·.id) = s2.map (·.id) → Schedule.hash s1 = Schedule.hash s2) := by
  refine ⟨Schedule.hash_eq_rollIds, ?_⟩
  intro s1 s2 h
  rw [Schedule.hash_eq_rollIds, Schedule.hash_eq_rollIds, h]

/-- Witness for `schedule_hash_rolling_and_id_determined`: two concrete
schedules whose nodes differ in identity and duration but share the id
sequence `[1, 2]` hash identically. -/
theorem schedule_hash_rolling_and_id_determined_witness :
    Schedule.hash [⟨10, 1, 5⟩, ⟨11, 2, 7⟩] = Schedule.hash [⟨20, 1, 9⟩, ⟨21, 2, 3⟩] :=
  schedule_hash_rolling_and_id_determined.2
    [⟨10, 1, 5⟩, ⟨11, 2, 7⟩] [⟨20, 1, 9⟩, ⟨21, 2, 3⟩] (by decide)

/-- Number of nodes of a task list whose pointer identity is `p`.  In the
C++ intrusive list a node occurs at most once, so for a real schedule this
is 1 for every member pointer. -/
def countPtr (p : Nat) (l : List ApplyTask) : Nat :=
  l.countP (fun t => decide (t.ptr = p))

/-- Sum of the `duration` fields of a task list (the mathematical value of
`analyzeTime` when no 64-bit wrap occurs). -/
def sumDur (l : List ApplyTask) : Nat := (l.map (·.duration)).sum


section ApplyLemmas

lemma copy_eq_id : ApplyTask.copy = id := funext fun t => rfl

lemma map_copy (l : List ApplyTask) : l.map ApplyTask.copy = l := by
  rw [copy_eq_id, List.map_id]

lemma analyzeTime_eq_sumDur_mod (tasks : List ApplyTask) :
    analyzeTime tasks = sumDur tasks % U64 := by
  suffices h : ∀ a : Nat,
      tasks.foldl (fun t task => (t + task.duration) % U64) (a % U64) =
        (a + sumDur tasks) % U64 by
    have h0 := h 0
    simpa [analyzeTime] using h0
  induction tasks with
  | nil => intro a; simp [sumDur]
  | cons t rest ih =>
      intro a
      simp only [List.foldl_cons, Nat.mod_add_mod]
      rw [show ((a + t.duration) % U64) =
        ((a + t.duration) % U64 % U64) from (Nat.mod_mod_of_dvd _ (dvd_refl U64)).symm]
      rw [Nat.mod_mod_of_dvd _ (dvd_refl U64), ih (a + t.duration)]
      simp [sumDur, Nat.add_assoc]

lemma countPtr_cons (p : Nat) (t : ApplyTask) (l : List ApplyTask) :
    countPtr p (t :: l) = countPtr p l + (if t.ptr = p then 1 else 0) := by
  simp [countPtr, List.countP_cons]

lemma sumDur_cons (t : ApplyTask) (l : List ApplyTask) :
    sumDur (t :: l) = t.duration + sumDur l := by
  simp [sumDur]

lemma apply_cons (o : ApplyOccupy) (t : ApplyTask) (rest : List ApplyTask) :
    Schedule.apply o (t :: rest) =
      (if t.ptr = o.use.ptr then
        (o.re_gen.reverse.map ApplyTask.copy) ++ [o.gen.copy]
      else []) ++
      (if ¬(t.ptr = o.gen.ptr ∧ o.move) then [t.copy] else []) ++
      Schedule.apply o rest := rfl

/-- Sum of the durations of the nodes of `l` whose pointer identity is
`o.gen`'s (the nodes `apply` skips when `move` holds). -/
def sumGen (o : ApplyOccupy) (l : List ApplyTask) : Nat :=
  sumDur (l.filter (fun t => decide (t.ptr = o.gen.ptr)))

lemma sumGen_cons (o : ApplyOccupy) (t : ApplyTask) (l : List ApplyTask) :
    sumGen o (t :: l) = (if t.ptr = o.gen.ptr then t.duration else 0) + sumGen o l := by
  by_cases h : t.ptr = o.gen.ptr <;>
    simp [sumGen, List.filter_cons, h, sumDur_cons]

lemma apply_length_use_zero (o : ApplyOccupy) (S : List ApplyTask)
    (h : countPtr o.use.ptr S = 0) :
    ((Schedule.apply o S).length : ℤ) =
      S.length - (if o.move = true then (countPtr o.gen.ptr S : ℤ) else 0) := by
  induction S with
  | nil => simp [Schedule.apply, countPtr]
  | cons t rest ih =>
      rw [countPtr_cons] at h
      have hne : ¬ t.ptr = o.use.ptr := by
        intro hh; rw [if_pos hh] at h; omega
      have hrest : countPtr o.use.ptr rest = 0 := by
        rw [if_neg hne] at h; omega
      have ih' := ih hrest
      rw [apply_cons, if_neg hne, countPtr_cons]
      by_cases h2 : t.ptr = o.gen.ptr <;> by_cases hm : o.move = true
      · rw [if_neg (not_not_intro ⟨h2, hm⟩)]
        simp only [if_pos hm, if_pos h2, if_pos hm] at ih' ⊢
        simp only [List.nil_append, List.append_nil, List.length_append, List.length_cons,
          List.length_nil, List.length_singleton, List.length_map, List.length_reverse,
          ApplyTask.copy]
        push_cast
        omega
      · rw [if_pos (fun hc => hm hc.2)]
        simp only [if_neg hm] at ih' ⊢
        simp only [List.nil_append, List.append_nil, List.length_append, List.length_cons,
          List.length_nil, List.length_singleton, List.length_map, List.length_reverse,
          ApplyTask.copy]
        push_cast
        omega
      · rw [if_pos (fun hc => h2 hc.1)]
        simp only [if_pos hm, if_neg h2, if_pos hm] at ih' ⊢
        simp only [List.nil_append, List.append_nil, List.length_append, List.length_cons,
          List.length_nil, List.length_singleton, List.length_map, List.length_reverse,
          ApplyTask.copy]
        push_cast
        omega
      · rw [if_pos (fun hc => h2 hc.1)]
        simp only [if_neg hm] at ih' ⊢
        simp only [List.nil_append, List.append_nil, List.length_append, List.length_cons,
          List.length_nil, List.length_singleton, List.length_map, List.length_reverse,
          ApplyTask.copy]
        push_cast
        omega

lemma apply_length_use_one (o : ApplyOccupy) (S : List ApplyTask)
    (h : countPtr o.use.ptr S = 1) :
    ((Schedule.apply o S).length : ℤ) =
      S.length + (o.re_gen.length + 1) -
        (if o.move = true then (countPtr o.gen.ptr S : ℤ) else 0) := by
  induction S with
  | nil => simp [countPtr] at h
  | cons t rest ih =>
      rw [countPtr_cons] at h
      rw [apply_cons, countPtr_cons]
      by_cases h1 : t.ptr = o.use.ptr
      · have hrest : countPtr o.use.ptr rest = 0 := by
          rw [if_pos h1] at h; omega
        have h0 := apply_length_use_zero o rest hrest
        rw [if_pos h1]
        by_cases h2 : t.ptr = o.gen.ptr <;> by_cases hm : o.move = true
        · rw [if_neg (not_not_intro ⟨h2, hm⟩)]
          simp only [if_pos hm, if_pos h2] at h0 ⊢
          simp only [List.nil_append, List.append_nil, List.length_append, List.length_cons,
          List.length_nil, List.length_singleton, List.length_map, List.length_reverse,
          ApplyTask.copy]
          push_cast
          omega
        · rw [if_pos (fun hc => hm hc.2)]
          simp only [if_neg hm] at h0 ⊢
          simp only [List.nil_append, List.append_nil, List.length_append, List.length_cons,
          List.length_nil, List.length_singleton, List.length_map, List.length_reverse,
          ApplyTask.copy]
          push_cast
          omega
        · rw [if_pos (fun hc => h2 hc.1)]
          simp only [if_pos hm, if_neg h2] at h0 ⊢
          simp only [List.nil_append, List.append_nil, List.length_append, List.length_cons,
          List.length_nil, List.length_singleton, List.length_map, List.length_reverse,
          ApplyTask.copy]
          push_cast
          omega
        · rw [if_pos (fun hc => h2 hc.1)]
          simp only [if_neg hm] at h0 ⊢
          simp only [List.nil_append, List.append_nil, List.length_append, List.length_cons,
          List.length_nil, List.length_singleton, List.length_map, List.length_reverse,
          ApplyTask.copy]
          push_cast
          omega
      · have hrest : countPtr o.use.ptr rest = 1 := by
          rw [if_neg h1] at h; omega
        have ih' := ih hrest
        rw [if_neg h1]
        by_cases h2 : t.ptr = o.gen.ptr <;> by_cases hm : o.move = true
        · rw [if_neg (not_not_intro ⟨h2, hm⟩)]
          simp only [if_pos hm, if_pos h2] at ih' ⊢
          simp only [List.nil_append, List.append_nil, List.length_append, List.length_cons,
          List.length_nil, List.length_singleton, List.length_map, List.length_reverse,
          ApplyTask.copy]
          push_cast
          omega
        · rw [if_pos (fun hc => hm hc.2)]
          simp only [if_neg hm] at ih' ⊢
          simp only [List.nil_append, List.append_nil, List.length_append, List.length_cons,
          List.length_nil, List.length_singleton, List.length_map, List.length_reverse,
          ApplyTask.copy]
          push_cast
          omega
        · rw [if_pos (fun hc => h2 hc.1)]
          simp only [if_pos hm, if_neg h2] at ih' ⊢
          simp only [List.nil_append, List.append_nil, List.length_append, List.length_cons,
          List.length_nil, List.length_singleton, List.length_map, List.length_reverse,
          ApplyTask.copy]
          push_cast
          omega
        · rw [if_pos (fun hc => h2 hc.1)]
          simp only [if_neg hm] at ih' ⊢
          simp only [List.nil_append, List.append_nil, List.length_append, List.length_cons,
          List.length_nil, List.length_singleton, List.length_map, List.length_reverse,
          ApplyTask.copy]
          push_cast
          omega

lemma sumDur_append (a b : List ApplyTask) :
    sumDur (a ++ b) = sumDur a + sumDur b := by
  simp [sumDur]

lemma sumDur_map_copy (l : List ApplyTask) :
    sumDur (l.map ApplyTask.copy) = sumDur l := by
  rw [map_copy]

lemma sumDur_nil : sumDur [] = 0 := rfl

lemma sumDur_reverse (l : List ApplyTask) : sumDur l.reverse = sumDur l := by
  simp [sumDur, List.map_reverse, List.sum_reverse]

lemma apply_sumDur_use_zero (o : ApplyOccupy) (S : List ApplyTask)
    (h : countPtr o.use.ptr S = 0) :
    ((sumDur (Schedule.apply o S)) : ℤ) =
      sumDur S - (if o.move = true then (sumGen o S : ℤ) else 0) := by
  induction S with
  | nil => simp [Schedule.apply, sumGen, sumDur]
  | cons t rest ih =>
      rw [countPtr_cons] at h
      have hne : ¬ t.ptr = o.use.ptr := by
        intro hh; rw [if_pos hh] at h; omega
      have hrest : countPtr o.use.ptr rest = 0 := by
        rw [if_neg hne] at h; omega
      have ih' := ih hrest
      rw [apply_cons, if_neg hne, sumDur_cons, sumGen_cons]
      by_cases h2 : t.ptr = o.gen.ptr <;> by_cases hm : o.move = true
      · rw [if_neg (not_not_intro ⟨h2, hm⟩)]
        simp only [if_pos hm, if_pos h2] at ih' ⊢
        simp only [List.nil_append, List.append_nil, sumDur_append, sumDur_cons,
            sumDur_nil, sumDur_map_copy, sumDur_reverse, ApplyTask.copy]
        push_cast
        omega
      · rw [if_pos (fun hc => hm hc.2)]
        simp only [if_neg hm] at ih' ⊢
        simp only [List.nil_append, List.append_nil, sumDur_append, sumDur_cons,
            sumDur_nil, sumDur_map_copy, sumDur_reverse, ApplyTask.copy]
        push_cast
        omega
      · rw [if_pos (fun hc => h2 hc.1)]
        simp only [if_pos hm, if_neg h2] at ih' ⊢
        simp only [List.nil_append, List.append_nil, sumDur_append, sumDur_cons,
            sumDur_nil, sumDur_map_copy, sumDur_reverse, ApplyTask.copy]
        push_cast
        omega
      · rw [if_pos (fun hc => h2 hc.1)]
        simp only [if_neg hm] at ih' ⊢
        simp only [List.nil_append, List.append_nil, sumDur_append, sumDur_cons,
            sumDur_nil, sumDur_map_copy, sumDur_reverse, ApplyTask.copy]
        push_cast
        omega

lemma apply_sumDur_use_one (o : ApplyOccupy) (S : List ApplyTask)
    (h : countPtr o.use.ptr S = 1) :
    ((sumDur (Schedule.apply o S)) : ℤ) =
      sumDur S + (o.gen.duration + sumDur o.re_gen) -
        (if o.move = true then (sumGen o S : ℤ) else 0) := by
  induction S with
  | nil => simp [countPtr] at h
  | cons t rest ih =>
      rw [countPtr_cons] at h
      rw [apply_cons, sumDur_cons, sumGen_cons]
      by_cases h1 : t.ptr = o.use.ptr
      · have hrest : countPtr o.use.ptr rest = 0 := by
          rw [if_pos h1] at h; omega
        have h0 := apply_sumDur_use_zero o rest hrest
        rw [if_pos h1]
        by_cases h2 : t.ptr = o.gen.ptr <;> by_cases hm : o.move = true
        · rw [if_neg (not_not_intro ⟨h2, hm⟩)]
          simp only [if_pos hm, if_pos h2] at h0 ⊢
          simp only [List.nil_append, List.append_nil, sumDur_append, sumDur_cons,
            sumDur_nil, sumDur_map_copy, sumDur_reverse, ApplyTask.copy]
          push_cast
          omega
        · rw [if_pos (fun hc => hm hc.2)]
          simp only [if_neg hm] at h0 ⊢
          simp only [List.nil_append, List.append_nil, sumDur_append, sumDur_cons,
            sumDur_nil, sumDur_map_copy, sumDur_reverse, ApplyTask.copy]
          push_cast
          omega
        · rw [if_pos (fun hc => h2 hc.1)]
          simp only [if_pos hm, if_neg h2] at h0 ⊢
          simp only [List.nil_append, List.append_nil, sumDur_append, sumDur_cons,
            sumDur_nil, sumDur_map_copy, sumDur_reverse, ApplyTask.copy]
          push_cast
          omega
        · rw [if_pos (fun hc => h2 hc.1)]
          simp only [if_neg hm] at h0 ⊢
          simp only [List.nil_append, List.append_nil, sumDur_append, sumDur_cons,
            sumDur_nil, sumDur_map_copy, sumDur_reverse, ApplyTask.copy]
          push_cast
          omega
      · have hrest : countPtr o.use.ptr rest = 1 := by
          rw [if_neg h1] at h; omega
        have ih' := ih hrest
        rw [if_neg h1]
        by_cases h2 : t.ptr = o.gen.ptr <;> by_cases hm : o.move = true
        · rw [if_neg (not_not_intro ⟨h2, hm⟩)]
          simp only [if_pos hm, if_pos h2] at ih' ⊢
          simp only [List.nil_append, List.append_nil, sumDur_append, sumDur_cons,
            sumDur_nil, sumDur_map_copy, sumDur_reverse, ApplyTask.copy]
          push_cast
          omega
        · rw [if_pos (fun hc => hm hc.2)]
          simp only [if_neg hm] at ih' ⊢
          simp only [List.nil_append, List.append_nil, sumDur_append, sumDur_cons,
            sumDur_nil, sumDur_map_copy, sumDur_reverse, ApplyTask.copy]
          push_cast
          omega
        · rw [if_pos (fun hc => h2 hc.1)]
          simp only [if_pos hm, if_neg h2] at ih' ⊢
          simp only [List.nil_append, List.append_nil, sumDur_append, sumDur_cons,
            sumDur_nil, sumDur_map_copy, sumDur_reverse, ApplyTask.copy]
          push_cast
          omega
        · rw [if_pos (fun hc => h2 hc.1)]
          simp only [if_neg hm] at ih' ⊢
          simp only [List.nil_append, List.append_nil, sumDur_append, sumDur_cons,
            sumDur_nil, sumDur_map_copy, sumDur_reverse, ApplyTask.copy]
          push_cast
          omega

lemma sumGen_le_gen_duration (o : ApplyOccupy) (S : List ApplyTask)
    (hcg : countPtr o.gen.ptr S ≤ 1)
    (hgen : ∀ t ∈ S, t.ptr = o.gen.ptr → t = o.gen) :
    sumGen o S ≤ o.gen.duration := by
  induction S with
  | nil => simp [sumGen, sumDur]
  | cons t rest ih =>
      rw [countPtr_cons] at hcg
      rw [sumGen_cons]
      by_cases h2 : t.ptr = o.gen.ptr
      · have ht : t = o.gen := hgen t (List.mem_cons_self t rest) h2
        have hzero : countPtr o.gen.ptr rest = 0 := by
          rw [if_pos h2] at hcg; omega
        have hfil : rest.filter (fun t => decide (t.ptr = o.gen.ptr)) = [] :=
          List.filter_eq_nil.mpr (by
            intro x hx
            simp only [decide_eq_true_eq]
            intro hxp
            have : 0 < countPtr o.gen.ptr rest := by
              unfold countPtr
              rw [List.countP_pos]
              exact ⟨x, hx, by simp [hxp]⟩
            omega)
        rw [if_pos h2, ht]
        unfold sumGen
        rw [hfil]
        simp [sumDur]
      · have hcg' : countPtr o.gen.ptr rest ≤ 1 := by
          rw [if_neg h2] at hcg; omega
        have hgen' : ∀ t' ∈ rest, t'.ptr = o.gen.ptr → t' = o.gen := fun t' ht' hp =>
          hgen t' (List.mem_cons_of_mem _ ht') hp
        rw [if_neg h2, Nat.zero_add]
        exact ih hcg' hgen'

end ApplyLemmas

/-- C4 counterexample: a `move = true` occupy whose `re_gen` chain is
non-empty.  `Schedule::apply` inserts the `re_gen` copies as well, so the
child has strictly more tasks than the parent. -/
theorem apply_move_same_count_counterexample :
    (ApplyOccupy.mk ⟨1, 1, 5⟩ ⟨2, 2, 7⟩ [⟨3, 3, 2⟩] true).move = true ∧
    (Schedule.apply (ApplyOccupy.mk ⟨1, 1, 5⟩ ⟨2, 2, 7⟩ [⟨3, 3, 2⟩] true)
        [⟨1, 1, 5⟩, ⟨2, 2, 7⟩]).length ≠
      ([⟨1, 1, 5⟩, ⟨2, 2, 7⟩] : List ApplyTask).length := by
  decide

/-- C4 (amended): for an occupy with `move = true` whose `use` and `gen`
nodes each occur exactly once in the parent list (as raw pointers always
do in the C++ intrusive list), `Schedule::apply` yields
`|S| + |re_gen|` tasks — the same number as the parent exactly when
`re_gen` is empty. -/
theorem apply_move_task_count (o : ApplyOccupy) (S : List ApplyTask)
    (hmove : o.move = true)
    (hu : countPtr o.use.ptr S = 1) (hg : countPtr o.gen.ptr S = 1) :
    (Schedule.apply o S).length = S.length + o.re_gen.length := by
  have h := apply_length_use_one o S hu
  rw [if_pos hmove, hg] at h
  push_cast at h
  omega

/-- Witness for `apply_move_task_count` at the counterexample's input:
2 parent tasks and one `re_gen` task give 3 tasks. -/
theorem apply_move_task_count_witness :
    (Schedule.apply (ApplyOccupy.mk ⟨1, 1, 5⟩ ⟨2, 2, 7⟩ [⟨3, 3, 2⟩] true)
        [⟨1, 1, 5⟩, ⟨2, 2, 7⟩]).length = 3 :=
  apply_move_task_count (ApplyOccupy.mk ⟨1, 1, 5⟩ ⟨2, 2, 7⟩ [⟨3, 3, 2⟩] true)
    [⟨1, 1, 5⟩, ⟨2, 2, 7⟩] rfl (by decide) (by decide)

/-- Schedules reachable from `S` by repeatedly applying occupy candidates.
Each step records the facts that hold of genuine candidates in the C++
search: the `use` node is a member of the (pointer-unique) intrusive list,
the `gen` pointer identifies at most one node (namely `gen` itself), and
the accumulated durations do not overflow `uint64_t`. -/
inductive Reaches : List ApplyTask → List ApplyTask → Prop
  | refl (S : List ApplyTask) : Reaches S S
  | step {S T : List ApplyTask} (o : ApplyOccupy) :
      Reaches S T →
      countPtr o.use.ptr T = 1 →
      countPtr o.gen.ptr T ≤ 1 →
      (∀ t ∈ T, t.ptr = o.gen.ptr → t = o.gen) →
      sumDur (Schedule.apply o T) < U64 →
      Reaches S (Schedule.apply o T)

section C9lemmas

lemma sumDur_le_apply (o : ApplyOccupy) (S : List ApplyTask)
    (hu : countPtr o.use.ptr S = 1) (hg : countPtr o.gen.ptr S ≤ 1)
    (hgen : ∀ t ∈ S, t.ptr = o.gen.ptr → t = o.gen) :
    sumDur S ≤ sumDur (Schedule.apply o S) := by
  have h := apply_sumDur_use_one o S hu
  by_cases hm : o.move = true
  · rw [if_pos hm] at h
    have hb := sumGen_le_gen_duration o S hg hgen
    push_cast at h
    omega
  · rw [if_neg hm] at h
    push_cast at h
    omega

lemma analyzeTime_lt_U64 (l : List ApplyTask) : analyzeTime l < U64 := by
  rw [analyzeTime_eq_sumDur_mod]
  exact Nat.mod_lt _ (by norm_num [U64])

lemma analyzeTime_le_apply (o : ApplyOccupy) (S : List ApplyTask)
    (hu : countPtr o.use.ptr S = 1) (hg : countPtr o.gen.ptr S ≤ 1)
    (hgen : ∀ t ∈ S, t.ptr = o.gen.ptr → t = o.gen)
    (hov : sumDur (Schedule.apply o S) < U64) :
    analyzeTime S ≤ analyzeTime (Schedule.apply o S) := by
  have hle := sumDur_le_apply o S hu hg hgen
  rw [analyzeTime_eq_sumDur_mod, analyzeTime_eq_sumDur_mod,
    Nat.mod_eq_of_lt hov, Nat.mod_eq_of_lt (lt_of_le_of_lt hle hov)]
  exact hle

end C9lemmas

/-- C9: applying an occupy candidate never decreases the total time
computed by `analyzeTime` (the inserted `gen` copy and `re_gen` copies at
least compensate the possibly deleted `gen`), so along any chain of
rewrites the total time is at least the origin's and the unsigned
subtraction `total_time - origin_time` inside `Comparator::score` is exact
(never underflows).  The hypotheses record facts true of the C++ search:
pointer identities are unique in the intrusive list, the `use` node of a
candidate is a list member, and realistic durations never wrap `uint64_t`. -/
theorem apply_total_time_monotone :
    (∀ (o : ApplyOccupy) (S : List ApplyTask),
      countPtr o.use.ptr S = 1 → countPtr o.gen.ptr S ≤ 1 →
      (∀ t ∈ S, t.ptr = o.gen.ptr → t = o.gen) →
      sumDur (Schedule.apply o S) < U64 →
      analyzeTime S ≤ analyzeTime (Schedule.apply o S)) ∧
    (∀ S T : List ApplyTask, Reaches S T →
      analyzeTime S ≤ analyzeTime T ∧
      u64sub (analyzeTime T) (analyzeTime S) = analyzeTime T - analyzeTime S) := by
  constructor
  · exact analyzeTime_le_apply
  · intro S T h
    induction h with
    | refl =>
        exact ⟨le_refl _, u64sub_eq_sub (le_refl _) (analyzeTime_lt_U64 _)⟩
    | step o hreach hu hg hgen hov ih =>
        have hstep := analyzeTime_le_apply o _ hu hg hgen hov
        have hle := le_trans ih.1 hstep
        exact ⟨hle, u64sub_eq_sub hle (analyzeTime_lt_U64 _)⟩

/-- Witness for `apply_total_time_monotone`: its first component applied
to a concrete one-task schedule and a `move = false` candidate whose `gen`
does not occur in the list. -/
theorem apply_total_time_monotone_witness :
    analyzeTime [⟨2, 2, 7⟩] ≤
      analyzeTime (Schedule.apply (ApplyOccupy.mk ⟨5, 1, 4⟩ ⟨2, 2, 7⟩ [] false)
        [⟨2, 2, 7⟩]) :=
  apply_total_time_monotone.1 (ApplyOccupy.mk ⟨5, 1, 4⟩ ⟨2, 2, 7⟩ [] false)
    [⟨2, 2, 7⟩] (by decide) (by decide) (by decide) (by decide)

/-- An operand as read by `Common::analyzeMemory`: its `id` (the identity
used for the `on_device` live set — `operands[id]` is the unique handle
with that id) and its byte `size`. -/
structure MemOperand where
  id : Nat
  size : Nat
  deriving DecidableEq

/-- A task as read by `Common::analyzeMemory` after `analyzeTopology`:
its output operands, its `workspace`, and the precomputed
`to_dealloc_after` list. -/
structure MemTask where
  outs : List MemOperand
  workspace : Nat
  to_dealloc_after : List MemOperand
  deriving DecidableEq

/-- The output loop of `analyzeMemory`: newly-live outputs are marked
on-device and their sizes added to `current_memory` (a `size_t`, so each
addition wraps modulo `2 ^ 64`). -/
def memOuts (st : List Nat × Nat) (outs : List MemOperand) : List Nat × Nat :=
  outs.foldl (fun (st : List Nat × Nat) o =>
    if o.id ∈ st.1 then st else (o.id :: st.1, (st.2 + o.size) % U64)) st

/-- The dealloc loop of `analyzeMemory`: operands in `to_dealloc_after`
are marked off-device and their sizes subtracted (`size_t` subtraction,
wrapping on underflow). -/
def memDealloc (st : List Nat × Nat) (ops : List MemOperand) : List Nat × Nat :=
  ops.foldl (fun (st : List Nat × Nat) o =>
    ((st.1.filter (fun i => decide (i ≠ o.id))), u64sub st.2 o.size)) st

/-- The task loop of `analyzeMemory`, returning the per-task
`execution_memory = current_memory + workspace` (`size_t` addition)
values in list order. -/
def memExecs (st : List Nat × Nat) : List MemTask → List Nat
  | [] => []
  | t :: rest =>
      let st' := memOuts st t.outs
      let exec := (st'.2 + t.workspace) % U64
      exec :: memExecs (memDealloc st' t.to_dealloc_after) rest

/-- Embeds `Common::analyzeMemory`: start from the operands of
`already_on` (live, their sizes accumulated into the `size_t`
`current_memory`, each addition wrapping), replay the task stream and
return the peak of the initial memory and all `execution_memory` values,
together with the `execution_memory` list itself (stored in
`task->execution_memory`). -/
def analyzeMemory (already_on : List MemOperand) (tasks : List MemTask) :
    Nat × List Nat :=
  let current0 := already_on.foldl (fun c o => (c + o.size) % U64) 0
  let on0 := already_on.map (·.id)
  let execs := memExecs (on0, current0) tasks
  (execs.foldl max current0, execs)

/-- The time-stamp marking loop at the head of `Common::analyzeOccupies`:
`task->time_stamp = ++time_stamp; if (execution_memory == peak_memory)
peak_time_stamp = time_stamp;` with accumulator arguments
(`time_stamp`, `peak_time_stamp`). -/
def ptsAux (peak : Nat) : Nat → Nat → List Nat → Nat
  | _, pts, [] => pts
  | ts, pts, e :: rest =>
      ptsAux peak (ts + 1) (if e = peak then ts + 1 else pts) rest

/-- Embeds `peak_time_stamp` as computed by `analyzeOccupies` over the
`execution_memory` values of the task list (1-based; 0 when no task
attains the peak). -/
def peakTimeStamp (execs : List Nat) (peak : Nat) : Nat :=
  ptsAux peak 0 0 execs

/-- The 1-based position of the first task attaining the peak, in the
words of the spec ("if multiple, the first"); `length + 1` if none. -/
def firstPeakTimeStamp (execs : List Nat) (peak : Nat) : Nat :=
  execs.findIdx (fun e => e == peak) + 1

/-- The 1-based position of the last task attaining the peak; 0 if
none. -/
def lastPeakTimeStamp (execs : List Nat) (peak : Nat) : Nat :=
  execs.length - execs.reverse.findIdx (fun e => e == peak)

section PeakLemmas

lemma ptsAux_append (peak e : Nat) (l : List Nat) : ∀ ts pts : Nat,
    ptsAux peak ts pts (l ++ [e]) =
      if e = peak then ts + l.length + 1 else ptsAux peak ts pts l := by
  induction l with
  | nil =>
      intro ts pts
      by_cases he : e = peak <;> simp [ptsAux, he]
  | cons a l ih =>
      intro ts pts
      simp only [List.cons_append, ptsAux, List.append_eq]
      rw [ih]
      by_cases he : e = peak <;> simp [he, List.length_cons] <;> omega

lemma peakTimeStamp_eq_last (execs : List Nat) (peak : Nat) :
    peakTimeStamp execs peak = lastPeakTimeStamp execs peak := by
  induction execs using List.reverseRecOn with
  | nil => simp [peakTimeStamp, ptsAux, lastPeakTimeStamp]
  | append_singleton l e ih =>
      unfold peakTimeStamp at ih ⊢
      rw [ptsAux_append]
      unfold lastPeakTimeStamp
      rw [List.reverse_append]
      simp only [List.reverse_singleton, List.singleton_append, List.findIdx_cons,
        List.length_append, List.length_singleton]
      by_cases he : e = peak
      · simp [he]
      · have hne : (e == peak) = false := beq_false_of_ne he
        rw [if_neg he]
        simp only [hne, cond_false]
        rw [ih]
        unfold lastPeakTimeStamp
        have hle := @List.findIdx_le_length _ (fun e => e == peak) l.reverse
        rw [List.length_reverse] at hle
        omega

lemma ptsAux_pos_of_pos (peak : Nat) (l : List Nat) : ∀ ts pts : Nat,
    0 < pts → 0 < ptsAux peak ts pts l := by
  induction l with
  | nil => intro ts pts h; exact h
  | cons e rest ih =>
      intro ts pts h
      simp only [ptsAux]
      by_cases he : e = peak
      · exact ih (ts + 1) _ (by rw [if_pos he]; omega)
      · exact ih (ts + 1) _ (by rw [if_neg he]; omega)

lemma ptsAux_pos_of_mem (peak : Nat) (l : List Nat) (h : peak ∈ l) :
    ∀ ts pts : Nat, 0 < ptsAux peak ts pts l := by
  induction l with
  | nil => cases h
  | cons e rest ih =>
      intro ts pts
      simp only [ptsAux]
      by_cases he : e = peak
      · exact ptsAux_pos_of_pos peak rest (ts + 1) _ (by rw [if_pos he]; omega)
      · have hmem : peak ∈ rest := by
          cases h with
          | head => exact absurd rfl he
          | tail _ hr => exact hr
        exact ih hmem (ts + 1) _

lemma memOuts_bounds (outs : List MemOperand) : ∀ st : List Nat × Nat,
    st.2 + (outs.map (·.size)).sum < U64 →
    st.2 ≤ (memOuts st outs).2 ∧
      (memOuts st outs).2 ≤ st.2 + (outs.map (·.size)).sum := by
  induction outs with
  | nil => intro st _; exact ⟨le_refl _, Nat.le_add_right _ _⟩
  | cons o os ih =>
      intro st hb
      simp only [List.map_cons, List.sum_cons] at hb ⊢
      unfold memOuts
      rw [List.foldl_cons]
      by_cases h : o.id ∈ st.1
      · rw [if_pos h]
        have h1 := ih st (by omega)
        unfold memOuts at h1
        exact ⟨h1.1, by omega⟩
      · rw [if_neg h]
        have hlt : st.2 + o.size < U64 := by omega
        rw [Nat.mod_eq_of_lt hlt]
        have h1 := ih (o.id :: st.1, st.2 + o.size) (by simp only []; omega)
        unfold memOuts at h1
        simp only [] at h1
        exact ⟨le_trans (Nat.le_add_right _ _) h1.1, by omega⟩

lemma memSeed_eq_sum_mod (ao : List MemOperand) :
    ao.foldl (fun c o => (c + o.size) % U64) 0 = (ao.map (·.size)).sum % U64 := by
  suffices h : ∀ a : Nat,
      ao.foldl (fun c o => (c + o.size) % U64) (a % U64) =
        (a + (ao.map (·.size)).sum) % U64 by
    have h0 := h 0
    simpa using h0
  induction ao with
  | nil => intro a; simp
  | cons o os ih =>
      intro a
      simp only [List.foldl_cons, Nat.mod_add_mod]
      rw [show ((a + o.size) % U64) =
        ((a + o.size) % U64 % U64) from (Nat.mod_mod_of_dvd _ (dvd_refl U64)).symm]
      rw [Nat.mod_mod_of_dvd _ (dvd_refl U64), ih (a + o.size)]
      simp [Nat.add_assoc]

lemma foldl_max_mem (l : List Nat) : ∀ a : Nat,
    l.foldl max a = a ∨ l.foldl max a ∈ l := by
  induction l with
  | nil => intro a; left; rfl
  | cons b rest ih =>
      intro a
      rw [List.foldl_cons]
      rcases ih (max a b) with h | h
      · rcases max_choice a b with hm | hm
        · left; rw [h, hm]
        · right; rw [h, hm]; exact List.mem_cons_self _ _
      · right; exact List.mem_cons_of_mem _ h

end PeakLemmas

/-- C2 counterexample: with `execution_memory` values `[5, 3, 5]` and peak
`5`, `analyzeOccupies` records `peak_time_stamp = 3` — the last task
attaining the peak, not the first (which is at time-stamp 1). -/
theorem peak_time_stamp_first_counterexample :
    peakTimeStamp [5, 3, 5] 5 = 3 ∧ firstPeakTimeStamp [5, 3, 5] 5 = 1 ∧
      peakTimeStamp [5, 3, 5] 5 ≠ firstPeakTimeStamp [5, 3, 5] 5 := by
  decide

/-- C2 (amended): when several tasks attain the peak `execution_memory`,
the assignment `peak_time_stamp = time_stamp` runs for each of them, so
the *last* such task in linked-list order is chosen (and 0 results when
none attains it). -/
theorem peak_time_stamp_is_last (execs : List Nat) (peak : Nat) :
    peakTimeStamp execs peak = lastPeakTimeStamp execs peak :=
  peakTimeStamp_eq_last execs peak

/-- C10: on a non-empty task list whose first task's memory footprint
(the `already_on` total plus that task's output sizes and workspace) fits
in `size_t`, the peak returned by `analyzeMemory` is attained by some
task's `execution_memory`: the first task's `execution_memory` already
dominates the initial `already_on` total, which seeds the maximum.  Hence
`peak_time_stamp > 0` and the assertion in `analyzeOccupies` cannot fail.
The fit-in-`size_t` hypothesis is what keeps the wrapping `current_memory`
accumulator exact through the first task; C++ gives no such guarantee for
operand sizes totalling at least `2 ^ 64` bytes. -/
theorem analyzeMemory_peak_attained (ao : List MemOperand) (t : MemTask)
    (rest : List MemTask)
    (hov : (ao.map (·.size)).sum + (t.outs.map (·.size)).sum + t.workspace < U64) :
    (analyzeMemory ao (t :: rest)).1 ∈ (analyzeMemory ao (t :: rest)).2 ∧
    0 < peakTimeStamp (analyzeMemory ao (t :: rest)).2
        (analyzeMemory ao (t :: rest)).1 := by
  have hmem : (analyzeMemory ao (t :: rest)).1 ∈ (analyzeMemory ao (t :: rest)).2 := by
    unfold analyzeMemory
    simp only [memExecs]
    have hseed : ao.foldl (fun c o => (c + o.size) % U64) 0 = (ao.map (·.size)).sum := by
      rw [memSeed_eq_sum_mod, Nat.mod_eq_of_lt (by omega)]
    set st0 : List Nat × Nat :=
      (ao.map (·.id), ao.foldl (fun c o => (c + o.size) % U64) 0) with hst0
    have hst02 : st0.2 = (ao.map (·.size)).sum := hseed
    have hb := memOuts_bounds t.outs st0 (by rw [hst02]; omega)
    have hexec_lt : (memOuts st0 t.outs).2 + t.workspace < U64 := by
      have h2 := hb.2
      rw [hst02] at h2
      omega
    set e1 := ((memOuts st0 t.outs).2 + t.workspace) % U64 with he1
    have h1 : st0.2 ≤ e1 := by
      rw [he1, Nat.mod_eq_of_lt hexec_lt]
      exact le_trans hb.1 (Nat.le_add_right _ _)
    rw [List.foldl_cons, max_eq_right h1]
    rcases foldl_max_mem (memExecs (memDealloc (memOuts st0 t.outs) t.to_dealloc_after) rest) e1 with
      hc | hc
    · rw [hc]; exact List.mem_cons_self _ _
    · exact List.mem_cons_of_mem _ hc
  refine ⟨hmem, ?_⟩
  exact ptsAux_pos_of_mem _ _ hmem 0 0

/-- Witness for `analyzeMemory_peak_attained`: a one-task schedule whose
task writes a 4-byte operand with 2 bytes of workspace (footprint 6, far
below `2 ^ 64`); the peak 6 is that task's `execution_memory` and its
time-stamp is 1. -/
theorem analyzeMemory_peak_attained_witness :
    (analyzeMemory [] [⟨[⟨0, 4⟩], 2, []⟩]).1 ∈ (analyzeMemory [] [⟨[⟨0, 4⟩], 2, []⟩]).2 ∧
    0 < peakTimeStamp (analyzeMemory [] [⟨[⟨0, 4⟩], 2, []⟩]).2
        (analyzeMemory [] [⟨[⟨0, 4⟩], 2, []⟩]).1 :=
  analyzeMemory_peak_attained [] ⟨[⟨0, 4⟩], 2, []⟩ [] (by decide)

/-- An `OperandUsage` as read by `Occupy::calculate`: the operand identity
and size, and the time stamps of the linked `next_use` / `prev_use` /
`last_use` tasks (`none` encodes a null handle). -/
structure OccUsage where
  operand : Nat
  size : Nat
  next_use_ts : Option Int
  prev_use_ts : Option Int
  last_use_ts : Option Int
  deriving DecidableEq

/-- A task as read by `Occupy::calculate`: time stamp, duration and the
two usage vectors. -/
structure OccTask where
  time_stamp : Int
  duration : Nat
  ins : List OccUsage
  outs : List OccUsage
  deriving DecidableEq

/-- Embeds `Task::contains(operand)` (over the outputs, the default). -/
def OccTask.contains (t : OccTask) (op : Nat) : Bool :=
  t.outs.any (fun u => u.operand == op)

/-- The result fields written by `Occupy::calculate`. -/
structure CalcResult where
  move : Bool
  score1 : ℚ
  score2 : ℚ

/-- Embeds `Occupy::O1_MEMORY_FACTOR = 0.2`. -/
def O1_MEMORY_FACTOR : ℚ := 2 / 10

/-- Embeds `Occupy::O1_TIME_FACTOR = 1.0 - O1_MEMORY_FACTOR`. -/
def O1_TIME_FACTOR : ℚ := 1 - O1_MEMORY_FACTOR

/-- Embeds `Occupy::O2_MEMORY_FACTOR = 0.8`. -/
def O2_MEMORY_FACTOR : ℚ := 8 / 10

/-- Embeds `Occupy::O2_TIME_FACTOR = 1.0 - O2_MEMORY_FACTOR`. -/
def O2_TIME_FACTOR : ℚ := 1 - O2_MEMORY_FACTOR

/-- Embeds `Occupy::calculate(peak_time_stamp, peak_memory, origin_time)` of the
current schedule module: `move` is cleared as soon as some output usage of
`gen` has a (non-null) `next_use` whose time stamp precedes `use`'s;
`time_increased` adds `gen`'s duration only when `move` is false, plus all
`re_gen` durations; `memory_increased` (a signed `long long`) adds the
sizes of `re_gen_ins` usages whose lifetime the rewrite prolongs and
subtracts the sizes of `use` inputs the rewrite frees at the peak. -/
def Occupy.calculate (gen use : OccTask) (re_gen : List OccTask)
    (re_gen_ins : List OccUsage) (peak_time_stamp : Int) (peak_memory : Nat)
    (origin_time : Nat) : CalcResult :=
  let move : Bool :=
    !(gen.outs.any (fun u =>
        match u.next_use_ts with
        | some ts => decide (ts < use.time_stamp)
        | none => false))
  let time_increased : Nat :=
    (if move then 0 else gen.duration) + (re_gen.map (·.duration)).sum
  let memory_increased : Int :=
    (re_gen_ins.foldl (fun m u =>
      if (match u.last_use_ts with
          | none => true
          | some ts => decide (ts < peak_time_stamp)) && !(gen.contains u.operand)
      then m + (u.size : Int) else m) 0) +
    (use.ins.foldl (fun m u =>
      if gen.contains u.operand &&
          (match u.prev_use_ts with
           | none => true
           | some ts => decide (ts < peak_time_stamp))
      then m - (u.size : Int) else m) 0)
  { move := move
    score1 := (memory_increased : ℚ) / (peak_memory : ℚ) * O1_MEMORY_FACTOR +
      (time_increased : ℚ) / (origin_time : ℚ) * O1_TIME_FACTOR
    score2 := (memory_increased : ℚ) / (peak_memory : ℚ) * O2_MEMORY_FACTOR +
      (time_increased : ℚ) / (origin_time : ℚ) * O2_TIME_FACTOR }

/-- The `move` condition in the words of the spec: no usage chain of
`gen`'s outputs has a `next_use` time stamp strictly between
`peak_time_stamp` and `use`'s time stamp. -/
def specMoveNoUseBetween (gen use : OccTask) (peak_time_stamp : Int) : Bool :=
  !(gen.outs.any (fun u =>
      match u.next_use_ts with
      | some ts => decide (peak_time_stamp < ts) && decide (ts < use.time_stamp)
      | none => false))

/-- C3 counterexample: `gen`'s single output is next used at time stamp 2,
the peak is at 3 and `use` at 4.  No reader lies strictly between the peak
and `use`, so the claim demands `move = true`, yet `Occupy::calculate`
(which only compares against `use`'s time stamp) sets `move = false`. -/
theorem calculate_move_between_counterexample :
    (Occupy.calculate ⟨1, 5, [], [⟨7, 4, some 2, none, none⟩]⟩
        ⟨4, 6, [], []⟩ [] [] 3 10 10).move = false ∧
    specMoveNoUseBetween ⟨1, 5, [], [⟨7, 4, some 2, none, none⟩]⟩
        ⟨4, 6, [], []⟩ 3 = true := by
  constructor
  · rfl
  · rfl

/-- C3 (amended): `Occupy::calculate` sets `move = true` exactly when no
output usage of `gen` has a non-null `next_use` whose time stamp is
strictly less than `use`'s time stamp; `peak_time_stamp` plays no role in
the condition. -/
theorem calculate_move_characterization (gen use : OccTask)
    (re_gen : List OccTask) (re_gen_ins : List OccUsage)
    (peak_time_stamp : Int) (peak_memory origin_time : Nat) :
    (Occupy.calculate gen use re_gen re_gen_ins peak_time_stamp peak_memory
        origin_time).move = true ↔
      ∀ u ∈ gen.outs, ∀ ts : Int, u.next_use_ts = some ts →
        use.time_stamp ≤ ts := by
  show (!(gen.outs.any _)) = true ↔ _
  rw [Bool.not_eq_true', List.any_eq_false]
  constructor
  · intro h u hu ts hts
    have hh := h u hu
    rw [hts] at hh
    simp only [decide_eq_true_eq] at hh
    exact le_of_not_lt hh
  · intro h u hu
    cases hnu : u.next_use_ts with
    | none => simp
    | some ts =>
        simp only [decide_eq_true_eq]
        exact not_lt.mpr (h u hu ts hnu)

/-- Witness for `calculate_move_characterization` at the counterexample's
input: the characterization instantiated there. -/
theorem calculate_move_characterization_witness :
    ((Occupy.calculate ⟨1, 5, [], [⟨7, 4, some 2, none, none⟩]⟩
        ⟨4, 6, [], []⟩ [] [] 3 10 10).move = true ↔
      ∀ u ∈ ([⟨7, 4, some 2, none, none⟩] : List OccUsage), ∀ ts : Int,
        u.next_use_ts = some ts → (4 : Int) ≤ ts) :=
  calculate_move_characterization ⟨1, 5, [], [⟨7, 4, some 2, none, none⟩]⟩
    ⟨4, 6, [], []⟩ [] [] 3 10 10

/-- A task as read by the version-computing forward pass of
`Common::analyzeTopology`: its id and the operand ids of its input and
output usages. -/
structure TopoTask where
  id : Nat
  ins : List Nat
  outs : List Nat
  deriving DecidableEq

/-- The `gen` map of the forward pass, as an association list from
operand id to the version of the latest writer's output usage (newest
binding first). -/
def usageInVersion (genv : List (Nat × Nat)) (op : Nat) : Nat :=
  ((genv.lookup op).getD op)

/-- The rolling accumulator `version = version * 131 + usage.version`
over the input usages, at `size_t` (64-bit), starting from 0. -/
def rollVersions (vs : List Nat) : Nat :=
  vs.foldl (fun v x => (v * 131 + x) % U64) 0

/-- An output usage's version: `version * 131 + usage.operand->id` at
`size_t`. -/
def outVersion (h : Nat) (op : Nat) : Nat := (h * 131 + op) % U64

/-- One task of the forward pass of `analyzeTopology`: each input usage's
version is the generating task's output version for that operand when a
generator exists (`Task::clear` initialised it to the operand id
otherwise); each output usage's version is `rolling * 131 + id` and the
`gen` map is updated to the task's outputs.  Returns the updated map and
the (input versions, output versions) of the task. -/
def topoStep (genv : List (Nat × Nat)) (t : TopoTask) :
    List (Nat × Nat) × (List Nat × List Nat) :=
  let ivs := t.ins.map (usageInVersion genv)
  let h := rollVersions ivs
  let ovs := t.outs.map (outVersion h)
  (t.outs.foldl (fun g op => (op, outVersion h op) :: g) genv, (ivs, ovs))

/-- The forward pass over the whole task stream with accumulator map. -/
def topoVersionsAux (genv : List (Nat × Nat)) :
    List TopoTask → List (List Nat × List Nat)
  | [] => []
  | t :: rest =>
      (topoStep genv t).2 :: topoVersionsAux (topoStep genv t).1 rest

/-- The per-task (input versions, output versions) computed by
`Common::analyzeTopology` (the `gen` map starts empty). -/
def analyzeTopologyVersions (tasks : List TopoTask) : List (List Nat × List Nat) :=
  topoVersionsAux [] tasks

section C7lemmas

lemma topoVersionsAux_spec (tasks : List TopoTask) : ∀ (genv : List (Nat × Nat))
    (p : List Nat × List Nat) (t : TopoTask),
    (p, t) ∈ (topoVersionsAux genv tasks).zip tasks →
    p.2 = t.outs.map (outVersion (rollVersions p.1)) := by
  induction tasks with
  | nil => intro genv p t h; simp [topoVersionsAux] at h
  | cons t0 rest ih =>
      intro genv p t h
      simp only [topoVersionsAux, List.zip_cons_cons, List.mem_cons] at h
      rcases h with h | h
      · have hp : p = (topoStep genv t0).2 := congrArg Prod.fst h
        have ht : t = t0 := congrArg Prod.snd h
        subst hp
        subst ht
        rfl
      · exact ih _ p t h

end C7lemmas

/-- C7: in `analyzeTopology` every output usage's version is the rolling
hash of the task's input-usage versions times 131 plus the operand id, in
64-bit arithmetic (first conjunct, over the whole forward pass), and the
computation is a deterministic function of the input versions and output
operands, so identical re-computation chains yield identical versions
(second conjunct). -/
theorem analyzeTopology_output_versions :
    (∀ (tasks : List TopoTask) (p : List Nat × List Nat) (t : TopoTask),
      (p, t) ∈ (analyzeTopologyVersions tasks).zip tasks →
      p.2 = t.outs.map (outVersion (rollVersions p.1))) ∧
    (∀ (genv1 genv2 : List (Nat × Nat)) (t1 t2 : TopoTask),
      t1.ins.map (usageInVersion genv1) = t2.ins.map (usageInVersion genv2) →
      t1.outs = t2.outs →
      (topoStep genv1 t1).2.2 = (topoStep genv2 t2).2.2) := by
  constructor
  · intro tasks
    exact topoVersionsAux_spec tasks []
  · intro genv1 genv2 t1 t2 hins houts
    unfold topoStep
    simp only []
    rw [hins, houts]

/-- Witness for `analyzeTopology_output_versions`: in the two-task chain
`t1 : [] -> [7]`, `t2 : [7] -> [9]`, the second task's output version is
`(0 * 131 + 7) * 131 + 9 = 926`. -/
theorem analyzeTopology_output_versions_witness :
    ([(926 : Nat)] : List Nat) = [9].map (outVersion (rollVersions [7])) :=
  analyzeTopology_output_versions.1 [⟨1, [], [7]⟩, ⟨2, [7], [9]⟩]
    ([7], [926]) ⟨2, [7], [9]⟩ (by decide)

/-- A task as read by `Common::analyzeShare`: id, name and the operand ids
of its input and output usages. -/
structure ShTask where
  id : Nat
  name : String
  ins : List Nat
  outs : List Nat
  deriving DecidableEq

/-- Embeds `Task::isShare`. -/
def ShTask.isShare (t : ShTask) : Bool := t.name == ".share"

/-- Embeds `Task::isDealloc`. -/
def ShTask.isDealloc (t : ShTask) : Bool := t.name == ".dealloc"

/-- The output loop of a `.share` task in `analyzeShare`: each output
operand is asserted not yet `generated`, then inserted into `generated`,
and `real_usage[out] = source` is recorded (newest binding first, as the
C++ map overwrite).  Aborts (`none`) when the assertion fails. -/
def shareOuts (source : Nat) : List Nat → List (Nat × Nat) → List Nat →
    Option (List (Nat × Nat) × List Nat)
  | [], ru, gen => some (ru, gen)
  | o :: os, ru, gen =>
      if o ∈ gen then none
      else shareOuts source os ((o, source) :: ru) (o :: gen)

/-- The loop of `Common::analyzeShare` with state (`real_usage`,
`generated`, `real_task`): a `.share` task asserts a single input, renames
the source through `real_usage`, asserts the renamed source is not itself
a `real_usage` key, then records its outputs; a `.dealloc` task is
skipped; any other task is renamed through `real_usage` when it touches a
shared operand, with the original backed up into `real_task`.  `none`
models the C++ `assert` aborting. -/
def analyzeShareAux : List ShTask → List (Nat × Nat) → List Nat →
    List (Nat × ShTask) →
    Option (List ShTask × List (Nat × Nat) × List Nat × List (Nat × ShTask))
  | [], ru, gen, rt => some ([], ru, gen, rt)
  | t :: rest, ru, gen, rt =>
      if t.isShare then
        match t.ins with
        | [src] =>
            let source := (ru.lookup src).getD src
            if (ru.lookup source).isSome then none
            else
              match shareOuts source t.outs ru gen with
              | none => none
              | some (ru', gen') =>
                  match analyzeShareAux rest ru' gen' rt with
                  | none => none
                  | some (ts, st) => some (t :: ts, st)
        | _ => none
      else if t.isDealloc then
        match analyzeShareAux rest ru gen rt with
        | none => none
        | some (ts, st) => some (t :: ts, st)
      else
        let hasShared := (t.ins ++ t.outs).any (fun op => (ru.lookup op).isSome)
        let t' : ShTask :=
          if hasShared then
            { t with ins := t.ins.map (fun op => (ru.lookup op).getD op),
                     outs := t.outs.map (fun op => (ru.lookup op).getD op) }
          else t
        let rt' := if hasShared then (t.id, t) :: rt else rt
        match analyzeShareAux rest ru gen rt' with
        | none => none
        | some (ts, st) => some (t' :: ts, st)

/-- Embeds `Common::analyzeShare` on a whole task stream (initial state
empty). -/
def analyzeShare (tasks : List ShTask) :
    Option (List ShTask × List (Nat × Nat) × List Nat × List (Nat × ShTask)) :=
  analyzeShareAux tasks [] [] []

/-- Spec-side predicate: some `.share` task uses, as its source, an
operand that an earlier `.share` task has already aliased (produced as a
`.share` output). -/
def shareSourceAfterAliasedAux (aliased : List Nat) : List ShTask → Bool
  | [] => false
  | t :: rest =>
      if t.isShare then
        (t.ins.any (· ∈ aliased)) || shareSourceAfterAliasedAux (t.outs ++ aliased) rest
      else shareSourceAfterAliasedAux aliased rest

/-- Spec-side predicate over a task stream, starting with nothing
aliased. -/
def shareSourceAfterAliased (tasks : List ShTask) : Bool :=
  shareSourceAfterAliasedAux [] tasks

/-- One `.share` task's outputs checked against the operands already seen
as `.share` outputs; returns whether a repeat occurred and the extended
seen set. -/
def checkOuts : List Nat → List Nat → Bool × List Nat
  | [], seen => (false, seen)
  | o :: os, seen => if o ∈ seen then (true, o :: seen) else checkOuts os (o :: seen)

/-- Spec-side predicate: some operand appears as a `.share` output
twice. -/
def shareOutputTwiceAux (seen : List Nat) : List ShTask → Bool
  | [] => false
  | t :: rest =>
      if t.isShare then
        (checkOuts t.outs seen).1 || shareOutputTwiceAux (checkOuts t.outs seen).2 rest
      else shareOutputTwiceAux seen rest

/-- Spec-side predicate over a task stream. -/
def shareOutputTwice (tasks : List ShTask) : Bool :=
  shareOutputTwiceAux [] tasks

section C6lemmas

lemma shareOuts_none_of_dup (source : Nat) (outs : List Nat) :
    ∀ (seen : List Nat) (ru : List (Nat × Nat)) (gen : List Nat),
    seen ⊆ gen → (checkOuts outs seen).1 = true →
    shareOuts source outs ru gen = none := by
  induction outs with
  | nil => intro seen ru gen hsub hdup; simp [checkOuts] at hdup
  | cons o os ih =>
      intro seen ru gen hsub hdup
      unfold shareOuts
      by_cases ho : o ∈ seen
      · rw [if_pos (hsub ho)]
      · unfold checkOuts at hdup
        rw [if_neg ho] at hdup
        by_cases hg : o ∈ gen
        · rw [if_pos hg]
        · rw [if_neg hg]
          exact ih (o :: seen) _ (o :: gen)
            (List.cons_subset_cons o hsub) hdup

lemma shareOuts_seen_subset (source : Nat) (outs : List Nat) :
    ∀ (seen : List Nat) (ru : List (Nat × Nat)) (gen : List Nat)
      (ru' : List (Nat × Nat)) (gen' : List Nat),
    seen ⊆ gen → (checkOuts outs seen).1 = false →
    shareOuts source outs ru gen = some (ru', gen') →
    (checkOuts outs seen).2 ⊆ gen' := by
  induction outs with
  | nil =>
      intro seen ru gen ru' gen' hsub _ hout
      unfold shareOuts at hout
      unfold checkOuts
      cases hout
      exact hsub
  | cons o os ih =>
      intro seen ru gen ru' gen' hsub hdup hout
      unfold checkOuts at hdup ⊢
      by_cases ho : o ∈ seen
      · rw [if_pos ho] at hdup; cases hdup
      · rw [if_neg ho] at hdup ⊢
        unfold shareOuts at hout
        by_cases hg : o ∈ gen
        · rw [if_pos hg] at hout; cases hout
        · rw [if_neg hg] at hout
          exact ih (o :: seen) _ (o :: gen) ru' gen'
            (List.cons_subset_cons o hsub) hdup hout

lemma analyzeShareAux_none_of_outputTwice (tasks : List ShTask) :
    ∀ (seen : List Nat) (ru : List (Nat × Nat)) (gen : List Nat)
      (rt : List (Nat × ShTask)),
    seen ⊆ gen → shareOutputTwiceAux seen tasks = true →
    analyzeShareAux tasks ru gen rt = none := by
  induction tasks with
  | nil => intro seen ru gen rt _ hdup; simp [shareOutputTwiceAux] at hdup
  | cons t rest ih =>
      intro seen ru gen rt hsub hdup
      unfold shareOutputTwiceAux at hdup
      unfold analyzeShareAux
      by_cases hs : t.isShare = true
      · rw [if_pos hs] at hdup ⊢
        rw [Bool.or_eq_true] at hdup
        match hins : t.ins with
        | [] => rfl
        | src :: b :: tl => rfl
        | [src] =>
            simp only []
            by_cases hlk : ((ru.lookup ((ru.lookup src).getD src)).isSome : Prop)
            · rw [if_pos hlk]
            · rw [if_neg hlk]
              rcases hdup with hdup | hdup
              · rw [shareOuts_none_of_dup _ t.outs seen ru gen hsub hdup]
              · cases hout : shareOuts ((ru.lookup src).getD src) t.outs ru gen with
                | none => rfl
                | some p =>
                    obtain ⟨ru1, gen1⟩ := p
                    by_cases hd1 : (checkOuts t.outs seen).1 = true
                    · rw [shareOuts_none_of_dup _ t.outs seen ru gen hsub hd1] at hout
                      cases hout
                    · have hsub' := shareOuts_seen_subset _ t.outs seen ru gen ru1 gen1
                        hsub (Bool.not_eq_true _ ▸ hd1) hout
                      show (match analyzeShareAux rest ru1 gen1 rt with
                        | none => none
                        | some (ts, st) => some (t :: ts, st)) = none
                      rw [ih _ ru1 gen1 rt hsub' hdup]
      · rw [if_neg hs] at hdup ⊢
        by_cases hdl : t.isDealloc = true
        · rw [if_pos hdl, ih seen ru gen rt hsub hdup]
        · rw [if_neg hdl]
          simp only []
          rw [ih seen ru gen
            (if (t.ins ++ t.outs).any (fun op => (ru.lookup op).isSome) then (t.id, t) :: rt else rt)
            hsub hdup]

end C6lemmas

/-- C6 counterexample: `.share [1] -> [2]` followed by `.share [2] -> [3]`
uses operand 2 as a `.share` source after it has been aliased, yet
`analyzeShare` succeeds — the source is silently renamed to its canonical
operand 1 rather than rejected. -/
theorem analyzeShare_aliased_source_counterexample :
    shareSourceAfterAliased
        [⟨1, ".share", [1], [2]⟩, ⟨2, ".share", [2], [3]⟩] = true ∧
    (analyzeShare [⟨1, ".share", [1], [2]⟩, ⟨2, ".share", [2], [3]⟩]).isSome = true := by
  constructor
  · rfl
  · rfl

/-- C6 (amended): `analyzeShare` does abort whenever an operand appears as
a `.share` output twice; an operand used as a `.share` source after being
aliased is canonicalised instead (an abort only occurs when the
canonicalised source is itself a `real_usage` key, or a `.share` does not
have exactly one input). -/
theorem analyzeShare_output_twice_aborts (tasks : List ShTask)
    (h : shareOutputTwice tasks = true) : analyzeShare tasks = none :=
  analyzeShareAux_none_of_outputTwice tasks [] [] [] []
    (List.nil_subset _) h

/-- Witness for `analyzeShare_output_twice_aborts`: operand 2 appears as a
`.share` output twice, and `analyzeShare` aborts. -/
theorem analyzeShare_output_twice_aborts_witness :
    analyzeShare [⟨1, ".share", [1], [2]⟩, ⟨2, ".share", [3], [2]⟩] = none :=
  analyzeShare_output_twice_aborts
    [⟨1, ".share", [1], [2]⟩, ⟨2, ".share", [3], [2]⟩] (by rfl)

namespace Optimizer

/-- Embeds `Optimizer::QUEUE_SIZE_LIMIT = 100` (optimizer.hpp, current
iteration). -/
def QUEUE_SIZE_LIMIT : Nat := 100

/-- Embeds `Optimizer::SEARCH_LIMIT = 1000`. -/
def SEARCH_LIMIT : Nat := 1000

/-- The schedule-dependent operations the `optimize` loop calls, abstracted
over the schedule type: `Comparator::satisfy`, `Comparator::operator()`,
`Comparator::considerable(best, s)`, `Schedule::hash` and
`generateSubstitutions`. -/
structure SearchParams (σ : Type) where
  satisfyP : σ → Bool
  cmpLt : σ → σ → Bool
  considerableP : σ → σ → Bool
  hash : σ → Nat
  subs : σ → List σ

/-- The mutable state of the search loop: the priority queue (as the list
of queued schedules), the incumbent `best`, the hash set (as a list), the
pop counter and the one-shot warning flag. -/
structure LoopState (σ : Type) where
  queue : List σ
  best : σ
  hashes : List Nat
  count : Nat
  firstWarning : Bool

/-- The element `std::priority_queue::top()` returns: a maximal element of
the queue under the comparator (the C++ heap picks an unspecified maximal
element among comparator-equivalent ones; this fold is the deterministic
refinement used here). -/
def popTop {σ : Type} (cmpLt : σ → σ → Bool) (x : σ) (rest : List σ) : σ :=
  rest.foldl (fun b y => if cmpLt b y then y else b) x

/-- The inner `for (auto &substitution : substitutions)` loop: stop at the
queue size limit (clearing the one-shot warning flag), drop substitutions
whose hash was seen, enqueue the considerable ones, and replace `best`
when the comparator ranks it below the substitution. -/
def processSubs {σ : Type} (P : SearchParams σ) : List σ → LoopState σ → LoopState σ
  | [], st => st
  | s :: rest, st =>
      if st.queue.length = QUEUE_SIZE_LIMIT then
        { st with firstWarning := false }
      else if st.hashes.contains (P.hash s) then
        processSubs P rest st
      else
        let st1 := if P.considerableP st.best s
          then { st with queue := st.queue ++ [s], hashes := st.hashes ++ [P.hash s] }
          else st
        let st2 := if P.cmpLt st1.best s then { st1 with best := s } else st1
        processSubs P rest st2

/-- One iteration of the `while (not queue.empty())` body: pop the top,
bump the counter, and process the popped schedule's substitutions. -/
def stepState {σ : Type} [DecidableEq σ] (P : SearchParams σ)
    (st : LoopState σ) (x : σ) (rest : List σ) : LoopState σ :=
  processSubs P (P.subs (popTop P.cmpLt x rest))
    { st with queue := st.queue.erase (popTop P.cmpLt x rest),
              count := st.count + 1 }

/-- Why the loop stopped. -/
inductive StopReason
  | satisfied
  | capReached
  | queueEmpty
  | fuelOut
  deriving DecidableEq

/-- The `while (not queue.empty())` loop of `Optimizer::optimize`, with an
explicit fuel argument (shown below to never run out from the real entry
state): stop with `satisfied` when `comparator.satisfy(best)` holds after
an iteration, with `capReached` when the pop counter reaches
`SEARCH_LIMIT`, and with `queueEmpty` when the queue is exhausted. -/
def optimizeLoop {σ : Type} [DecidableEq σ] (P : SearchParams σ) :
    Nat → LoopState σ → LoopState σ × StopReason
  | 0, st => (st, StopReason.fuelOut)
  | fuel + 1, st =>
      match st.queue with
      | [] => (st, StopReason.queueEmpty)
      | x :: rest =>
          if P.satisfyP (stepState P st x rest).best then
            (stepState P st x rest, StopReason.satisfied)
          else if (stepState P st x rest).count = SEARCH_LIMIT then
            (stepState P st x rest, StopReason.capReached)
          else optimizeLoop P fuel (stepState P st x rest)

/-- Embeds `Optimizer::optimize`: seed the queue and the hash set with the
origin schedule and run the loop (`count` starts at 0, so `SEARCH_LIMIT`
units of fuel always suffice). -/
def optimize {σ : Type} [DecidableEq σ] (P : SearchParams σ) (origin : σ) :
    LoopState σ × StopReason :=
  optimizeLoop P SEARCH_LIMIT
    { queue := [origin], best := origin, hashes := [P.hash origin],
      count := 0, firstWarning := true }

end Optimizer

section C5lemmas

lemma processSubs_count {σ : Type} (P : Optimizer.SearchParams σ)
    (l : List σ) : ∀ st : Optimizer.LoopState σ,
    (Optimizer.processSubs P l st).count = st.count := by
  induction l with
  | nil => intro st; rfl
  | cons s rest ih =>
      intro st
      unfold Optimizer.processSubs
      by_cases h1 : st.queue.length = Optimizer.QUEUE_SIZE_LIMIT
      · rw [if_pos h1]
      · rw [if_neg h1]
        by_cases h2 : st.hashes.contains (P.hash s)
        · rw [if_pos h2]
          exact ih st
        · rw [if_neg h2]
          simp only []
          rw [ih]
          split <;> split <;> rfl

lemma stepState_count {σ : Type} [DecidableEq σ] (P : Optimizer.SearchParams σ)
    (st : Optimizer.LoopState σ) (x : σ) (rest : List σ) :
    (Optimizer.stepState P st x rest).count = st.count + 1 := by
  unfold Optimizer.stepState
  rw [processSubs_count]

lemma optimizeLoop_succ {σ : Type} [DecidableEq σ] (P : Optimizer.SearchParams σ)
    (n : Nat) (st : Optimizer.LoopState σ) :
    Optimizer.optimizeLoop P (n + 1) st =
      match st.queue with
      | [] => (st, Optimizer.StopReason.queueEmpty)
      | x :: rest =>
          if P.satisfyP (Optimizer.stepState P st x rest).best then
            (Optimizer.stepState P st x rest, Optimizer.StopReason.satisfied)
          else if (Optimizer.stepState P st x rest).count = Optimizer.SEARCH_LIMIT then
            (Optimizer.stepState P st x rest, Optimizer.StopReason.capReached)
          else Optimizer.optimizeLoop P n (Optimizer.stepState P st x rest) := rfl

lemma optimizeLoop_succ_nil {σ : Type} [DecidableEq σ] (P : Optimizer.SearchParams σ)
    (n : Nat) (st : Optimizer.LoopState σ) (hq : st.queue = []) :
    Optimizer.optimizeLoop P (n + 1) st = (st, Optimizer.StopReason.queueEmpty) := by
  rw [optimizeLoop_succ, hq]

lemma optimizeLoop_succ_cons {σ : Type} [DecidableEq σ] (P : Optimizer.SearchParams σ)
    (n : Nat) (st : Optimizer.LoopState σ) (x : σ) (rest : List σ)
    (hq : st.queue = x :: rest) :
    Optimizer.optimizeLoop P (n + 1) st =
      (if P.satisfyP (Optimizer.stepState P st x rest).best then
        (Optimizer.stepState P st x rest, Optimizer.StopReason.satisfied)
      else if (Optimizer.stepState P st x rest).count = Optimizer.SEARCH_LIMIT then
        (Optimizer.stepState P st x rest, Optimizer.StopReason.capReached)
      else Optimizer.optimizeLoop P n (Optimizer.stepState P st x rest)) := by
  rw [optimizeLoop_succ, hq]

lemma optimizeLoop_spec {σ : Type} [DecidableEq σ] (P : Optimizer.SearchParams σ) :
    ∀ (fuel : Nat) (st : Optimizer.LoopState σ),
    ((Optimizer.optimizeLoop P fuel st).2 = Optimizer.StopReason.satisfied →
      P.satisfyP (Optimizer.optimizeLoop P fuel st).1.best = true) ∧
    ((Optimizer.optimizeLoop P fuel st).2 = Optimizer.StopReason.capReached →
      (Optimizer.optimizeLoop P fuel st).1.count = Optimizer.SEARCH_LIMIT) ∧
    ((Optimizer.optimizeLoop P fuel st).2 = Optimizer.StopReason.queueEmpty →
      (Optimizer.optimizeLoop P fuel st).1.queue = []) := by
  intro fuel
  induction fuel with
  | zero =>
      intro st
      refine ⟨?_, ?_, ?_⟩ <;> intro h <;> cases h
  | succ n ih =>
      intro st
      cases hq : st.queue with
      | nil =>
          rw [optimizeLoop_succ_nil P n st hq]
          refine ⟨?_, ?_, ?_⟩ <;> intro h
          · cases h
          · cases h
          · exact hq
      | cons x rest =>
          rw [optimizeLoop_succ_cons P n st x rest hq]
          by_cases hs : P.satisfyP (Optimizer.stepState P st x rest).best = true
          · rw [if_pos hs]
            refine ⟨fun _ => hs, ?_, ?_⟩ <;> intro h <;> cases h
          · rw [if_neg hs]
            by_cases hc : (Optimizer.stepState P st x rest).count = Optimizer.SEARCH_LIMIT
            · rw [if_pos hc]
              refine ⟨?_, fun _ => hc, ?_⟩ <;> intro h <;> cases h
            · rw [if_neg hc]
              exact ih (Optimizer.stepState P st x rest)

lemma optimizeLoop_no_fuelOut {σ : Type} [DecidableEq σ] (P : Optimizer.SearchParams σ) :
    ∀ (fuel : Nat) (st : Optimizer.LoopState σ),
    st.count < Optimizer.SEARCH_LIMIT →
    Optimizer.SEARCH_LIMIT - st.count ≤ fuel →
    (Optimizer.optimizeLoop P fuel st).2 ≠ Optimizer.StopReason.fuelOut := by
  intro fuel
  induction fuel with
  | zero =>
      intro st hlt hle
      omega
  | succ n ih =>
      intro st hlt _
      cases hq : st.queue with
      | nil =>
          rw [optimizeLoop_succ_nil P n st hq]
          intro h; cases h
      | cons x rest =>
          rw [optimizeLoop_succ_cons P n st x rest hq]
          by_cases hs : P.satisfyP (Optimizer.stepState P st x rest).best = true
          · rw [if_pos hs]; intro h; cases h
          · rw [if_neg hs]
            by_cases hc : (Optimizer.stepState P st x rest).count = Optimizer.SEARCH_LIMIT
            · rw [if_pos hc]; intro h; cases h
            · rw [if_neg hc]
              have hcount := stepState_count P st x rest
              exact ih (Optimizer.stepState P st x rest) (by omega) (by omega)

end C5lemmas

/-- C5 counterexample: the iteration cap declared at
`Optimizer::SEARCH_LIMIT` is 1000 popped schedules, not 1500. -/
theorem optimizer_search_limit_not_1500 :
    Optimizer.SEARCH_LIMIT = 1000 ∧ Optimizer.SEARCH_LIMIT ≠ 1500 := by
  decide

/-- C5 (amended): for every schedule type and every instantiation of the
search operations, `Optimizer::optimize` stops exactly through one of the
three exits — `satisfy(best)` holds, the pop counter reaches
`SEARCH_LIMIT = 1000` (not 1500), or the priority queue empties — and the
fuel (which mirrors the C++ unbounded `while`) never runs out from the
real entry state. -/
theorem optimize_stop_conditions (σ : Type) [DecidableEq σ]
    (P : Optimizer.SearchParams σ) (origin : σ) :
    (Optimizer.optimize P origin).2 ≠ Optimizer.StopReason.fuelOut ∧
    ((Optimizer.optimize P origin).2 = Optimizer.StopReason.satisfied →
      P.satisfyP (Optimizer.optimize P origin).1.best = true) ∧
    ((Optimizer.optimize P origin).2 = Optimizer.StopReason.capReached →
      (Optimizer.optimize P origin).1.count = Optimizer.SEARCH_LIMIT) ∧
    ((Optimizer.optimize P origin).2 = Optimizer.StopReason.queueEmpty →
      (Optimizer.optimize P origin).1.queue = []) ∧
    Optimizer.SEARCH_LIMIT = 1000 := by
  refine ⟨?_, ?_, ?_, ?_, rfl⟩
  · exact optimizeLoop_no_fuelOut P Optimizer.SEARCH_LIMIT _
      (by norm_num [Optimizer.SEARCH_LIMIT]) (by norm_num)
  · exact (optimizeLoop_spec P Optimizer.SEARCH_LIMIT _).1
  · exact (optimizeLoop_spec P Optimizer.SEARCH_LIMIT _).2.1
  · exact (optimizeLoop_spec P Optimizer.SEARCH_LIMIT _).2.2

/-- A concrete instantiation of the search operations over `Nat`
schedules: nothing satisfies, no substitutions are generated. -/
def trivialParams : Optimizer.SearchParams Nat :=
  ⟨fun _ => false, fun _ _ => false, fun _ _ => true, id, fun _ => []⟩

/-- Witness for `optimize_stop_conditions`: the theorem applied at the
trivial instantiation and origin 0. -/
theorem optimize_stop_conditions_witness :
    (Optimizer.optimize trivialParams 0).2 ≠ Optimizer.StopReason.fuelOut ∧
    ((Optimizer.optimize trivialParams 0).2 = Optimizer.StopReason.satisfied →
      trivialParams.satisfyP (Optimizer.optimize trivialParams 0).1.best = true) ∧
    ((Optimizer.optimize trivialParams 0).2 = Optimizer.StopReason.capReached →
      (Optimizer.optimize trivialParams 0).1.count = Optimizer.SEARCH_LIMIT) ∧
    ((Optimizer.optimize trivialParams 0).2 = Optimizer.StopReason.queueEmpty →
      (Optimizer.optimize trivialParams 0).1.queue = []) ∧
    Optimizer.SEARCH_LIMIT = 1000 :=
  optimize_stop_conditions Nat trivialParams 0
